import Mathlib

/-!
Shallow embedding of the AR/VR traffic-model core (arvr-sim.cc):
the 12-byte fragment header codec, the downlink frame generator
(burst and paced modes), the receiver's stream reassembler
(UDP message-preserving and TCP byte-stream paths), the per-frame
deadline classifier, and the delay aggregator.

Machine integers are modelled as `Nat` with explicit reduction
`% 2^8 / 2^16 / 2^32` at the points where the C++ types truncate.
-/

namespace ArvrSim

/-- The VR fragment header (class VrHeader): frameId u32, pktId u16,
pktCount u16, sendTsMs u32.  Fields are `Nat`; values are reduced
modulo the C++ type's width wherever the code stores or reads them. -/
structure VrHeader where
  frameId : Nat
  pktId : Nat
  pktCount : Nat
  sendTsMs : Nat
deriving DecidableEq, Repr

/-- The header with each field reduced to its C++ storage width,
as the typed fields `uint32_t/uint16_t` of VrHeader hold it. -/
def canonHeader (h : VrHeader) : VrHeader :=
  ⟨h.frameId % 4294967296, h.pktId % 65536, h.pktCount % 65536,
   h.sendTsMs % 4294967296⟩

/-- VrHeader::Serialize: the 12 bytes written in network order
(big-endian), in field order frameId, pktId, pktCount, sendTsMs. -/
def headerBytes (h : VrHeader) : List Nat :=
  [h.frameId / 16777216 % 256, h.frameId / 65536 % 256,
   h.frameId / 256 % 256, h.frameId % 256,
   h.pktId / 256 % 256, h.pktId % 256,
   h.pktCount / 256 % 256, h.pktCount % 256,
   h.sendTsMs / 16777216 % 256, h.sendTsMs / 65536 % 256,
   h.sendTsMs / 256 % 256, h.sendTsMs % 256]

/-- VrHeader::DeserializeFromRaw: reads data[0..11] big-endian into
frameId, pktId, pktCount, sendTsMs.  The bytes come from a
`uint8_t*`, modelled by reducing each list element `% 256`.
The C++ caller guarantees at least 12 bytes are available; the
spec's MalformedHeader failure for shorter inputs is modelled as
`none`. -/
def deserializeFromRaw : List Nat → Option VrHeader
  | b0 :: b1 :: b2 :: b3 :: b4 :: b5 :: b6 :: b7 :: b8 :: b9 :: b10 :: b11 :: _ =>
    some ⟨(b0 % 256) * 16777216 + (b1 % 256) * 65536 + (b2 % 256) * 256 + b3 % 256,
          (b4 % 256) * 256 + b5 % 256,
          (b6 % 256) * 256 + b7 % 256,
          (b8 % 256) * 16777216 + (b9 % 256) * 65536 + (b10 % 256) * 256 + b11 % 256⟩
  | _ => none

theorem deserialize_headerBytes (h : VrHeader) (rest : List Nat) :
    deserializeFromRaw (headerBytes h ++ rest) = some (canonHeader h) := by
  simp only [headerBytes, List.cons_append, List.nil_append, deserializeFromRaw, canonHeader]
  refine congrArg some ?_
  congr 1 <;> omega

/-- C7: header decode fails (MalformedHeader, modelled as `none`)
exactly when fewer than 12 bytes are supplied; with at least 12
bytes it succeeds and returns the fields read big-endian in order
frameId (u32), fragmentIndex (u16), fragmentCount (u16),
sendTimestampMs (u32). -/
theorem c7_decode_malformed_or_big_endian (bs : List Nat) :
    deserializeFromRaw bs =
      (if bs.length < 12 then none
       else some ⟨(bs.getD 0 0 % 256) * 16777216 + (bs.getD 1 0 % 256) * 65536 +
                    (bs.getD 2 0 % 256) * 256 + bs.getD 3 0 % 256,
                  (bs.getD 4 0 % 256) * 256 + bs.getD 5 0 % 256,
                  (bs.getD 6 0 % 256) * 256 + bs.getD 7 0 % 256,
                  (bs.getD 8 0 % 256) * 16777216 + (bs.getD 9 0 % 256) * 65536 +
                    (bs.getD 10 0 % 256) * 256 + bs.getD 11 0 % 256⟩) := by
  match bs with
  | [] => rfl
  | [b0] => rfl
  | [b0, b1] => rfl
  | [b0, b1, b2] => rfl
  | [b0, b1, b2, b3] => rfl
  | [b0, b1, b2, b3, b4] => rfl
  | [b0, b1, b2, b3, b4, b5] => rfl
  | [b0, b1, b2, b3, b4, b5, b6] => rfl
  | [b0, b1, b2, b3, b4, b5, b6, b7] => rfl
  | [b0, b1, b2, b3, b4, b5, b6, b7, b8] => rfl
  | [b0, b1, b2, b3, b4, b5, b6, b7, b8, b9] => rfl
  | [b0, b1, b2, b3, b4, b5, b6, b7, b8, b9, b10] => rfl
  | b0 :: b1 :: b2 :: b3 :: b4 :: b5 :: b6 :: b7 :: b8 :: b9 :: b10 :: b11 :: tail =>
    rw [if_neg (by simp [List.length_cons])]
    rfl

/-- Per-frame reassembly state (struct FrameState of VrReceiverApp),
with the C++ default member initialisers. -/
structure FrameState where
  pktCount : Nat := 0
  arrived : Nat := 0
  sendTsMs : Nat := 0
  counted : Bool := false
  done : Bool := false
deriving DecidableEq, Repr

/-- Receiver-side classification state (the VrReceiverApp members
touched by ProcessPacket and StopApplication).  The std::map
m_frames is modelled as a total function from frameId together
with the set of keys present in the map; a key absent from the
map behaves as the default FrameState, exactly as
operator[] default-constructs it. -/
structure RxState where
  frames : Nat → FrameState
  keys : Finset Nat
  deadlineMs : Nat
  totalFrames : Nat
  onTimeFrames : Nat
  lateFrames : Nat
  incompleteFrames : Nat
  delays : List Nat

/-- The receiver state at construction: empty frame map, zero
counters, deadline as stored in the uint32_t m_deadlineMs. -/
def initRx (deadline : Nat) : RxState :=
  { frames := fun _ => {}
    keys := ∅
    deadlineMs := deadline % 4294967296
    totalFrames := 0
    onTimeFrames := 0
    lateFrames := 0
    incompleteFrames := 0
    delays := [] }

/-- VrReceiverApp::ProcessPacket: the unified per-fragment handler
shared by the UDP and TCP paths.  uint16_t arithmetic on arrived,
uint32_t arithmetic on the delay `nowMs - sendTsMs`. -/
def processPacket (st : RxState) (hdr : VrHeader) (nowMs : Nat) : RxState :=
  let fid := hdr.frameId % 4294967296
  let st0 := st.frames fid
  let st1 : FrameState :=
    if st0.counted then st0
    else { st0 with counted := true, pktCount := hdr.pktCount % 65536, sendTsMs := hdr.sendTsMs % 4294967296 }
  let total' := if st0.counted then st.totalFrames else st.totalFrames + 1
  let st2 : FrameState := { st1 with arrived := (st1.arrived + 1) % 65536 }
  if st2.done = false ∧ st2.arrived = st2.pktCount then
    let delta := (nowMs % 4294967296 + 4294967296 - st2.sendTsMs) % 4294967296
    let st3 : FrameState := { st2 with done := true }
    if delta ≤ st.deadlineMs then
      { st with frames := fun g => if g = fid then st3 else st.frames g,
                keys := insert fid st.keys,
                totalFrames := total',
                onTimeFrames := st.onTimeFrames + 1,
                delays := st.delays ++ [delta] }
    else
      { st with frames := fun g => if g = fid then st3 else st.frames g,
                keys := insert fid st.keys,
                totalFrames := total',
                lateFrames := st.lateFrames + 1,
                delays := st.delays ++ [delta] }
  else
    { st with frames := fun g => if g = fid then st2 else st.frames g,
              keys := insert fid st.keys,
              totalFrames := total' }

/-- Processing a sequence of decoded fragment headers, each tagged
with its arrival time in ms (the receiver's view of a run). -/
def runRx (st : RxState) : List (VrHeader × Nat) → RxState
  | [] => st
  | (h, t) :: es => runRx (processPacket st h t) es

/-- VrReceiverApp::StopApplication: the shutdown sweep that counts
every frame that is counted but not done into incompleteFrames. -/
def stopApplication (st : RxState) : RxState :=
  { st with incompleteFrames := st.incompleteFrames +
      (st.keys.filter
        (fun f => (st.frames f).counted = true ∧ (st.frames f).done = false)).card }

/-- Number of frames the shutdown sweep will count as incomplete:
entries of the frame map that are counted but not done. -/
def sweepCount (st : RxState) : Nat :=
  (st.keys.filter
    (fun f => (st.frames f).counted = true ∧ (st.frames f).done = false)).card

/-- Run invariant of the receiver: the frame counters balance
against the pending (counted-but-not-done) frames, incompleteFrames
stays zero until shutdown, keys of the map are exactly the counted
frames, and done frames are counted. -/
def InvRx (st : RxState) : Prop :=
  st.totalFrames = st.onTimeFrames + st.lateFrames + sweepCount st
  ∧ st.incompleteFrames = 0
  ∧ (∀ f, f ∉ st.keys → (st.frames f).counted = false)
  ∧ (∀ f, f ∈ st.keys → (st.frames f).counted = true)
  ∧ (∀ f, (st.frames f).done = true → (st.frames f).counted = true)

lemma card_filter_insert_update (s : Finset Nat) (fid : Nat) (p q : Nat → Prop)
    [DecidablePred p] [DecidablePred q]
    (hag : ∀ f ∈ s, f ≠ fid → (p f ↔ q f)) :
    ((insert fid s).filter q).card + (if p fid ∧ fid ∈ s then 1 else 0)
      = (s.filter p).card + (if q fid then 1 else 0) := by
  classical
  by_cases hmem : fid ∈ s
  · have hs : insert fid s = s := Finset.insert_eq_self.mpr hmem
    have hdecomp : s = insert fid (s.erase fid) := (Finset.insert_erase hmem).symm
    have hfe : fid ∉ s.erase fid := Finset.not_mem_erase fid s
    have hagree : (s.erase fid).filter q = (s.erase fid).filter p := by
      refine Finset.filter_congr ?_
      intro f hf
      have hf' := Finset.mem_erase.mp hf
      exact (hag f hf'.2 hf'.1).symm
    have hq : (s.filter q).card
        = (if q fid then 1 else 0) + ((s.erase fid).filter q).card := by
      conv_lhs => rw [hdecomp]
      rw [Finset.filter_insert]
      by_cases hqf : q fid
      · rw [if_pos hqf, if_pos hqf,
          Finset.card_insert_of_not_mem (fun hx => hfe (Finset.mem_filter.mp hx).1)]
        omega
      · rw [if_neg hqf, if_neg hqf]; omega
    have hp : (s.filter p).card
        = (if p fid then 1 else 0) + ((s.erase fid).filter p).card := by
      conv_lhs => rw [hdecomp]
      rw [Finset.filter_insert]
      by_cases hpf : p fid
      · rw [if_pos hpf, if_pos hpf,
          Finset.card_insert_of_not_mem (fun hx => hfe (Finset.mem_filter.mp hx).1)]
        omega
      · rw [if_neg hpf, if_neg hpf]; omega
    rw [hs, hq, hp, hagree]
    by_cases hpf : p fid <;> by_cases hqf : q fid <;>
      simp [hpf, hqf, hmem] <;> omega
  · have hagree : s.filter q = s.filter p := by
      refine Finset.filter_congr ?_
      intro f hf
      exact (hag f hf (fun hx => hmem (hx ▸ hf))).symm
    rw [Finset.filter_insert]
    by_cases hqf : q fid
    · rw [if_pos hqf,
        Finset.card_insert_of_not_mem (fun hx => hmem (Finset.mem_filter.mp hx).1)]
      simp [hqf, hmem, hagree]
    · rw [if_neg hqf]
      simp [hqf, hmem, hagree]

lemma card_q (st : RxState) (fid : Nat) (fs' : FrameState) :
    ((insert fid st.keys).filter (fun f =>
        ((if f = fid then fs' else st.frames f).counted = true ∧
         (if f = fid then fs' else st.frames f).done = false))).card +
      (if ((st.frames fid).counted = true ∧ (st.frames fid).done = false) ∧ fid ∈ st.keys
       then 1 else 0)
      = sweepCount st + (if fs'.counted = true ∧ fs'.done = false then 1 else 0) := by
  classical
  have hkey := card_filter_insert_update st.keys fid
    (fun f => (st.frames f).counted = true ∧ (st.frames f).done = false)
    (fun f => ((if f = fid then fs' else st.frames f).counted = true ∧
               (if f = fid then fs' else st.frames f).done = false))
    (by intro f hf hne; simp [hne])
  simp only [eq_self_iff_true, if_true] at hkey
  rw [sweepCount]
  omega

lemma InvRx_parts (st : RxState) (fid : Nat) (fs' : FrameState)
    (tot ont lat : Nat) (dl : List Nat)
    (h3 : ∀ f, f ∉ st.keys → (st.frames f).counted = false)
    (h4 : ∀ f, f ∈ st.keys → (st.frames f).counted = true)
    (h5 : ∀ f, (st.frames f).done = true → (st.frames f).counted = true)
    (hcnt : fs'.counted = true)
    (hbal : tot +
        (if ((st.frames fid).counted = true ∧ (st.frames fid).done = false) ∧ fid ∈ st.keys
         then 1 else 0)
      = ont + lat + sweepCount st + (if fs'.done = false then 1 else 0))
    (hinc : st.incompleteFrames = 0) :
    InvRx { st with
            frames := fun g => if g = fid then fs' else st.frames g
            keys := insert fid st.keys
            totalFrames := tot
            onTimeFrames := ont
            lateFrames := lat
            delays := dl } := by
  refine ⟨?_, hinc, ?_, ?_, ?_⟩
  · have hkey := card_q st fid fs'
    rw [hcnt] at hkey
    simp only [eq_self_iff_true, true_and] at hkey
    simp only [sweepCount]
    omega
  · intro f hf
    have hne : f ≠ fid := fun hx => hf (hx ▸ Finset.mem_insert_self fid st.keys)
    have hf' : f ∉ st.keys := fun hx => hf (Finset.mem_insert_of_mem hx)
    simpa [hne] using h3 f hf'
  · intro f hf
    rcases Finset.mem_insert.mp hf with hfe | hfk
    · simpa [hfe] using hcnt
    · by_cases hne : f = fid
      · simpa [hne] using hcnt
      · simpa [hne] using h4 f hfk
  · intro f hdone
    by_cases hne : f = fid
    · simpa [hne] using hcnt
    · simp only [if_neg hne] at hdone ⊢
      exact h5 f hdone

lemma processPacket_inv (st : RxState) (hd : VrHeader) (t : Nat) (hinv : InvRx st) :
    InvRx (processPacket st hd t) := by
  classical
  obtain ⟨h1, h2, h3, h4, h5⟩ := hinv
  simp only [processPacket]
  by_cases hc : (st.frames (hd.frameId % 4294967296)).counted = true
  · simp only [hc, if_pos rfl, if_true]
    have hmem : hd.frameId % 4294967296 ∈ st.keys := by
      by_contra hx
      exact absurd (h3 _ hx) (by simp [hc])
    by_cases hfire : ((st.frames (hd.frameId % 4294967296)).done = false ∧
        ((st.frames (hd.frameId % 4294967296)).arrived + 1) % 65536 =
          (st.frames (hd.frameId % 4294967296)).pktCount)
    · rw [if_pos hfire]
      by_cases hle : (t % 4294967296 + 4294967296 -
          (st.frames (hd.frameId % 4294967296)).sendTsMs) % 4294967296 ≤ st.deadlineMs
      · rw [if_pos hle]
        refine InvRx_parts st _ _ _ _ _ _ h3 h4 h5 rfl ?_ h2
        rw [if_pos ⟨⟨hc, hfire.1⟩, hmem⟩, if_neg (by simp)]
        omega
      · rw [if_neg hle]
        refine InvRx_parts st _ _ _ _ _ _ h3 h4 h5 rfl ?_ h2
        rw [if_pos ⟨⟨hc, hfire.1⟩, hmem⟩, if_neg (by simp)]
        omega
    · rw [if_neg hfire]
      refine InvRx_parts st _ _ _ _ _ _ h3 h4 h5 rfl ?_ h2
      by_cases hdf : (st.frames (hd.frameId % 4294967296)).done = false
      · rw [if_pos ⟨⟨hc, hdf⟩, hmem⟩, if_pos hdf]
        omega
      · rw [if_neg (fun hx => hdf hx.1.2), if_neg hdf]
        omega
  · have hc' : (st.frames (hd.frameId % 4294967296)).counted = false := by
      revert hc; cases (st.frames (hd.frameId % 4294967296)).counted <;> simp
    simp only [hc', Bool.false_eq_true, if_false, if_neg]
    have hnm : hd.frameId % 4294967296 ∉ st.keys := by
      intro hx
      exact absurd (h4 _ hx) (by simp [hc'])
    have hnp : ¬ (((st.frames (hd.frameId % 4294967296)).counted = true ∧
        (st.frames (hd.frameId % 4294967296)).done = false) ∧
        hd.frameId % 4294967296 ∈ st.keys) := fun hx => hnm hx.2
    have hdf : (st.frames (hd.frameId % 4294967296)).done = false := by
      by_contra hx
      have : (st.frames (hd.frameId % 4294967296)).done = true := by
        revert hx; cases (st.frames (hd.frameId % 4294967296)).done <;> simp
      exact absurd (h5 _ this) (by simp [hc'])
    by_cases hfire : ((st.frames (hd.frameId % 4294967296)).done = false ∧
        ((st.frames (hd.frameId % 4294967296)).arrived + 1) % 65536 =
          hd.pktCount % 65536)
    · rw [if_pos hfire]
      by_cases hle : (t % 4294967296 + 4294967296 -
          hd.sendTsMs % 4294967296) % 4294967296 ≤ st.deadlineMs
      · rw [if_pos hle]
        refine InvRx_parts st _ _ _ _ _ _ h3 h4 h5 rfl ?_ h2
        rw [if_neg hnp, if_neg (by simp)]
        omega
      · rw [if_neg hle]
        refine InvRx_parts st _ _ _ _ _ _ h3 h4 h5 rfl ?_ h2
        rw [if_neg hnp, if_neg (by simp)]
        omega
    · rw [if_neg hfire]
      refine InvRx_parts st _ _ _ _ _ _ h3 h4 h5 rfl ?_ h2
      rw [if_neg hnp, if_pos hdf]
      omega

lemma initRx_inv (d : Nat) : InvRx (initRx d) := by
  refine ⟨?_, rfl, ?_, ?_, ?_⟩ <;> simp [initRx, sweepCount]

lemma runRx_inv (st : RxState) (es : List (VrHeader × Nat)) (hinv : InvRx st) :
    InvRx (runRx st es) := by
  induction es generalizing st with
  | nil => exact hinv
  | cons e es ih =>
    rcases e with ⟨h, t⟩
    exact ih _ (processPacket_inv st h t hinv)

/-- C1: after the shutdown sweep, onTimeFrames + lateFrames +
incompleteFrames equals totalFrames, for every sequence of
processed fragment headers. -/
theorem c1_shutdown_counter_balance (deadline : Nat) (es : List (VrHeader × Nat)) :
    (stopApplication (runRx (initRx deadline) es)).onTimeFrames
      + (stopApplication (runRx (initRx deadline) es)).lateFrames
      + (stopApplication (runRx (initRx deadline) es)).incompleteFrames
    = (stopApplication (runRx (initRx deadline) es)).totalFrames := by
  obtain ⟨h1, h2, _, _, _⟩ := runRx_inv (initRx deadline) es (initRx_inv deadline)
  rw [sweepCount] at h1
  simp only [stopApplication]
  omega

/-- The classification branch condition of ProcessPacket: holds iff
processing hdr in state st triggers the Open to Complete transition
(the frame is not yet done and the updated arrived count equals the
declared fragment count). -/
def firesOn (st : RxState) (hdr : VrHeader) : Prop :=
  (st.frames (hdr.frameId % 4294967296)).done = false ∧
    ((st.frames (hdr.frameId % 4294967296)).arrived + 1) % 65536 =
      (if (st.frames (hdr.frameId % 4294967296)).counted = true
       then (st.frames (hdr.frameId % 4294967296)).pktCount
       else hdr.pktCount % 65536)

instance firesOnDecidable (st : RxState) (hdr : VrHeader) : Decidable (firesOn st hdr) := by
  unfold firesOn
  infer_instance

/-- Number of processed fragments that trigger the Open to Complete
classification for frame fid, along the run from state st. -/
def countFires (fid : Nat) (st : RxState) : List (VrHeader × Nat) → Nat
  | [] => 0
  | (h, t) :: es =>
    (if h.frameId % 4294967296 = fid ∧ firesOn st h then 1 else 0)
      + countFires fid (processPacket st h t) es

lemma pp_frames_other (st : RxState) (hd : VrHeader) (t : Nat) (f : Nat)
    (hf : f ≠ hd.frameId % 4294967296) :
    (processPacket st hd t).frames f = st.frames f := by
  simp only [processPacket]
  split_ifs <;> simp [hf]

lemma pp_done_mono (st : RxState) (hd : VrHeader) (t : Nat) (f : Nat)
    (hdone : (st.frames f).done = true) :
    ((processPacket st hd t).frames f).done = true := by
  by_cases hf : f = hd.frameId % 4294967296
  · subst hf
    simp only [processPacket]
    split_ifs with h1 h2 <;> simp_all
  · rw [pp_frames_other st hd t f hf]
    exact hdone

lemma pp_done_of_fires (st : RxState) (hd : VrHeader) (t : Nat)
    (hfire : firesOn st hd) :
    ((processPacket st hd t).frames (hd.frameId % 4294967296)).done = true := by
  obtain ⟨hdf, harr⟩ := hfire
  simp only [processPacket]
  by_cases hc : (st.frames (hd.frameId % 4294967296)).counted = true
  · rw [if_pos hc] at harr
    simp only [hc, if_pos rfl, if_true]
    rw [if_pos ⟨hdf, harr⟩]
    split_ifs <;> simp
  · rw [if_neg hc] at harr
    have hc' : (st.frames (hd.frameId % 4294967296)).counted = false := by
      revert hc; cases (st.frames (hd.frameId % 4294967296)).counted <;> simp
    simp only [hc', Bool.false_eq_true, if_false]
    rw [if_pos ⟨hdf, harr⟩]
    split_ifs <;> simp

lemma pp_arrived (st : RxState) (hd : VrHeader) (t : Nat) :
    ((processPacket st hd t).frames (hd.frameId % 4294967296)).arrived
      = ((st.frames (hd.frameId % 4294967296)).arrived + 1) % 65536 := by
  simp only [processPacket]
  by_cases hc : (st.frames (hd.frameId % 4294967296)).counted = true
  · simp only [hc, if_pos rfl, if_true]
    split_ifs <;> simp
  · have hc' : (st.frames (hd.frameId % 4294967296)).counted = false := by
      revert hc; cases (st.frames (hd.frameId % 4294967296)).counted <;> simp
    simp only [hc', Bool.false_eq_true, if_false]
    split_ifs <;> simp

lemma countFires_zero_of_done (fid : Nat) (st : RxState) (es : List (VrHeader × Nat))
    (hdone : (st.frames fid).done = true) :
    countFires fid st es = 0 := by
  induction es generalizing st with
  | nil => rfl
  | cons e es ih =>
    rcases e with ⟨h, t⟩
    simp only [countFires]
    rw [if_neg, ih _ (pp_done_mono st h t fid hdone)]
    intro hx
    have := hx.2.1
    rw [hx.1] at this
    rw [hdone] at this
    exact absurd this (by simp)

lemma countFires_le_one (fid : Nat) (st : RxState) (es : List (VrHeader × Nat)) :
    countFires fid st es ≤ 1 := by
  induction es generalizing st with
  | nil => simp [countFires]
  | cons e es ih =>
    rcases e with ⟨h, t⟩
    simp only [countFires]
    by_cases hcond : (h.frameId % 4294967296 = fid ∧ firesOn st h)
    · rw [if_pos hcond]
      have hdone : ((processPacket st h t).frames fid).done = true := by
        rw [← hcond.1]
        exact pp_done_of_fires st h t hcond.2
      rw [countFires_zero_of_done fid _ es hdone]
    · rw [if_neg hcond]
      simpa using ih _

/-- C3: for every frameId, the Open to Complete classification fires
at most once along any run, no matter how many further fragments or
duplicates of that frameId are processed; and every processed
fragment still increments its frame's arrivedCount (mod 2^16). -/
theorem c3_classification_at_most_once (deadline fid : Nat) (es : List (VrHeader × Nat)) :
    countFires fid (initRx deadline) es ≤ 1
    ∧ ∀ (st : RxState) (hd : VrHeader) (t : Nat),
        ((processPacket st hd t).frames (hd.frameId % 4294967296)).arrived
          = ((st.frames (hd.frameId % 4294967296)).arrived + 1) % 65536 :=
  ⟨countFires_le_one fid (initRx deadline) es, fun st hd t => pp_arrived st hd t⟩

/-- C4: when a frame completes, the appended delay equals the
arrival time minus the stored send timestamp of its first-arrived
fragment (uint32 arithmetic), and the deadline boundary is
inclusive: onTimeFrames is incremented exactly when
delay <= deadlineMs, lateFrames otherwise. -/
theorem c4_delay_inclusive_deadline (st : RxState) (hdr : VrHeader) (now : Nat)
    (hcnt : (st.frames (hdr.frameId % 4294967296)).counted = true)
    (hdone : (st.frames (hdr.frameId % 4294967296)).done = false)
    (harr : ((st.frames (hdr.frameId % 4294967296)).arrived + 1) % 65536
      = (st.frames (hdr.frameId % 4294967296)).pktCount) :
    (processPacket st hdr now).delays
        = st.delays ++ [(now % 4294967296 + 4294967296 -
            (st.frames (hdr.frameId % 4294967296)).sendTsMs) % 4294967296]
    ∧ (processPacket st hdr now).onTimeFrames
        = st.onTimeFrames + (if (now % 4294967296 + 4294967296 -
            (st.frames (hdr.frameId % 4294967296)).sendTsMs) % 4294967296 ≤ st.deadlineMs
          then 1 else 0)
    ∧ (processPacket st hdr now).lateFrames
        = st.lateFrames + (if (now % 4294967296 + 4294967296 -
            (st.frames (hdr.frameId % 4294967296)).sendTsMs) % 4294967296 ≤ st.deadlineMs
          then 0 else 1)
    ∧ ((processPacket st hdr now).frames (hdr.frameId % 4294967296)).done = true := by
  simp only [processPacket, hcnt, if_pos rfl, if_true]
  rw [if_pos ⟨hdone, harr⟩]
  by_cases hle : (now % 4294967296 + 4294967296 -
      (st.frames (hdr.frameId % 4294967296)).sendTsMs) % 4294967296 ≤ st.deadlineMs
  · rw [if_pos hle]
    refine ⟨rfl, ?_, ?_, ?_⟩ <;> simp [hle]
  · rw [if_neg hle]
    refine ⟨rfl, ?_, ?_, ?_⟩ <;> simp [hle]

theorem c4_delay_inclusive_deadline_witness :
    ((processPacket (processPacket (initRx 80) ⟨1, 0, 2, 100⟩ 120) ⟨1, 1, 2, 150⟩ 180).delays
        = (processPacket (initRx 80) ⟨1, 0, 2, 100⟩ 120).delays ++
            [(180 % 4294967296 + 4294967296 -
              ((processPacket (initRx 80) ⟨1, 0, 2, 100⟩ 120).frames
                ((1 : Nat) % 4294967296)).sendTsMs) % 4294967296]
      ∧ (processPacket (processPacket (initRx 80) ⟨1, 0, 2, 100⟩ 120) ⟨1, 1, 2, 150⟩ 180).onTimeFrames
        = (processPacket (initRx 80) ⟨1, 0, 2, 100⟩ 120).onTimeFrames +
            (if (180 % 4294967296 + 4294967296 -
              ((processPacket (initRx 80) ⟨1, 0, 2, 100⟩ 120).frames
                ((1 : Nat) % 4294967296)).sendTsMs) % 4294967296 ≤
                (processPacket (initRx 80) ⟨1, 0, 2, 100⟩ 120).deadlineMs then 1 else 0)
      ∧ (processPacket (processPacket (initRx 80) ⟨1, 0, 2, 100⟩ 120) ⟨1, 1, 2, 150⟩ 180).lateFrames
        = (processPacket (initRx 80) ⟨1, 0, 2, 100⟩ 120).lateFrames +
            (if (180 % 4294967296 + 4294967296 -
              ((processPacket (initRx 80) ⟨1, 0, 2, 100⟩ 120).frames
                ((1 : Nat) % 4294967296)).sendTsMs) % 4294967296 ≤
                (processPacket (initRx 80) ⟨1, 0, 2, 100⟩ 120).deadlineMs then 0 else 1)
      ∧ ((processPacket (processPacket (initRx 80) ⟨1, 0, 2, 100⟩ 120) ⟨1, 1, 2, 150⟩ 180).frames
          ((1 : Nat) % 4294967296)).done = true)
    ∧ ((processPacket (processPacket (initRx 80) ⟨1, 0, 2, 100⟩ 120) ⟨1, 1, 2, 151⟩ 181).lateFrames
        = (processPacket (initRx 80) ⟨1, 0, 2, 100⟩ 120).lateFrames +
            (if (181 % 4294967296 + 4294967296 -
              ((processPacket (initRx 80) ⟨1, 0, 2, 100⟩ 120).frames
                ((1 : Nat) % 4294967296)).sendTsMs) % 4294967296 ≤
                (processPacket (initRx 80) ⟨1, 0, 2, 100⟩ 120).deadlineMs then 0 else 1))
    ∧ ((180 % 4294967296 + 4294967296 -
          ((processPacket (initRx 80) ⟨1, 0, 2, 100⟩ 120).frames
            ((1 : Nat) % 4294967296)).sendTsMs) % 4294967296 = 80)
    ∧ ((processPacket (processPacket (initRx 80) ⟨1, 0, 2, 100⟩ 120) ⟨1, 1, 2, 150⟩ 180).onTimeFrames = 1)
    ∧ ((processPacket (processPacket (initRx 80) ⟨1, 0, 2, 100⟩ 120) ⟨1, 1, 2, 151⟩ 181).lateFrames = 1) :=
  ⟨c4_delay_inclusive_deadline (processPacket (initRx 80) ⟨1, 0, 2, 100⟩ 120)
      ⟨1, 1, 2, 150⟩ 180 (by decide) (by decide) (by decide),
   (c4_delay_inclusive_deadline (processPacket (initRx 80) ⟨1, 0, 2, 100⟩ 120)
      ⟨1, 1, 2, 151⟩ 181 (by decide) (by decide) (by decide)).2.2.1,
   by decide, by decide, by decide⟩

/-- Number of processed fragments belonging to frame fid. -/
def countFid (fid : Nat) : List (VrHeader × Nat) → Nat
  | [] => 0
  | (h, _) :: es => (if h.frameId % 4294967296 = fid then 1 else 0) + countFid fid es

lemma runRx_append (st : RxState) (a b : List (VrHeader × Nat)) :
    runRx st (a ++ b) = runRx (runRx st a) b := by
  induction a generalizing st with
  | nil => rfl
  | cons e a ih =>
    rcases e with ⟨h, t⟩
    exact ih (processPacket st h t)

lemma pp_keys (st : RxState) (hd : VrHeader) (t : Nat) :
    (processPacket st hd t).keys = insert (hd.frameId % 4294967296) st.keys := by
  simp only [processPacket]
  split_ifs <;> rfl

lemma pp_total_of_uncounted (st : RxState) (hd : VrHeader) (t : Nat)
    (hc : (st.frames (hd.frameId % 4294967296)).counted = false) :
    (processPacket st hd t).totalFrames = st.totalFrames + 1 := by
  simp only [processPacket, hc, Bool.false_eq_true, if_false]
  split_ifs <;> rfl

lemma pp_frames_fid_uncounted_nofire (st : RxState) (hd : VrHeader) (t : Nat)
    (hc : (st.frames (hd.frameId % 4294967296)).counted = false)
    (hnf : ¬ ((st.frames (hd.frameId % 4294967296)).done = false ∧
      ((st.frames (hd.frameId % 4294967296)).arrived + 1) % 65536 = hd.pktCount % 65536)) :
    (processPacket st hd t).frames (hd.frameId % 4294967296)
      = { pktCount := hd.pktCount % 65536,
          arrived := ((st.frames (hd.frameId % 4294967296)).arrived + 1) % 65536,
          sendTsMs := hd.sendTsMs % 4294967296,
          counted := true,
          done := (st.frames (hd.frameId % 4294967296)).done } := by
  simp only [processPacket, hc, Bool.false_eq_true, if_false]
  rw [if_neg hnf]
  simp

lemma pp_frames_fid_counted_nofire (st : RxState) (hd : VrHeader) (t : Nat)
    (hc : (st.frames (hd.frameId % 4294967296)).counted = true)
    (hnf : ¬ ((st.frames (hd.frameId % 4294967296)).done = false ∧
      ((st.frames (hd.frameId % 4294967296)).arrived + 1) % 65536 =
        (st.frames (hd.frameId % 4294967296)).pktCount)) :
    (processPacket st hd t).frames (hd.frameId % 4294967296)
      = { pktCount := (st.frames (hd.frameId % 4294967296)).pktCount,
          arrived := ((st.frames (hd.frameId % 4294967296)).arrived + 1) % 65536,
          sendTsMs := (st.frames (hd.frameId % 4294967296)).sendTsMs,
          counted := true,
          done := (st.frames (hd.frameId % 4294967296)).done } := by
  simp only [processPacket, hc, if_pos rfl, if_true]
  rw [if_neg hnf]
  simp

lemma runRx_frames_other (fid : Nat) (st : RxState) (es : List (VrHeader × Nat))
    (hz : countFid fid es = 0) :
    (runRx st es).frames fid = st.frames fid := by
  induction es generalizing st with
  | nil => rfl
  | cons e es ih =>
    rcases e with ⟨h, t⟩
    simp only [countFid] at hz
    have hne : h.frameId % 4294967296 ≠ fid := by
      intro hx
      rw [if_pos hx] at hz
      omega
    have hz' : countFid fid es = 0 := by
      rw [if_neg hne] at hz
      omega
    calc (runRx (processPacket st h t) es).frames fid
        = (processPacket st h t).frames fid := ih (processPacket st h t) hz'
      _ = st.frames fid := pp_frames_other st h t fid (fun hx => hne hx.symm)

lemma runRx_keys_mono (st : RxState) (es : List (VrHeader × Nat)) :
    st.keys ⊆ (runRx st es).keys := by
  induction es generalizing st with
  | nil => exact fun x hx => hx
  | cons e es ih =>
    rcases e with ⟨h, t⟩
    intro x hx
    refine ih (processPacket st h t) ?_
    rw [pp_keys]
    exact Finset.mem_insert_of_mem hx

lemma runRx_zero_declared (fid : Nat) (st : RxState) (es : List (VrHeader × Nat))
    (hcnt : (st.frames fid).counted = true)
    (hpc : (st.frames fid).pktCount = 0)
    (hdone : (st.frames fid).done = false)
    (harr1 : 1 ≤ (st.frames fid).arrived)
    (hbound : (st.frames fid).arrived + countFid fid es < 65536) :
    ((runRx st es).frames fid).counted = true
    ∧ ((runRx st es).frames fid).pktCount = 0
    ∧ ((runRx st es).frames fid).done = false
    ∧ ((runRx st es).frames fid).arrived = (st.frames fid).arrived + countFid fid es := by
  induction es generalizing st with
  | nil => exact ⟨hcnt, hpc, hdone, by simp [runRx, countFid]⟩
  | cons e es ih =>
    rcases e with ⟨h, t⟩
    simp only [countFid] at hbound ⊢
    by_cases hf : h.frameId % 4294967296 = fid
    · rw [if_pos hf] at hbound ⊢
      have hnf : ¬ ((st.frames (h.frameId % 4294967296)).done = false ∧
          ((st.frames (h.frameId % 4294967296)).arrived + 1) % 65536 =
            (st.frames (h.frameId % 4294967296)).pktCount) := by
        rw [hf, hpc]
        intro hx
        have h1 : ((st.frames fid).arrived + 1) % 65536 = (st.frames fid).arrived + 1 := by
          omega
        omega
      have hfr := pp_frames_fid_counted_nofire st h t (by rw [hf]; exact hcnt) hnf
      rw [hf] at hfr
      have harrmod : ((st.frames fid).arrived + 1) % 65536 = (st.frames fid).arrived + 1 := by
        omega
      have hrec := ih (processPacket st h t)
        (by rw [hfr]) (by rw [hfr]; exact hpc) (by rw [hfr]; exact hdone)
        (by rw [hfr]; simp only [harrmod]; omega)
        (by rw [hfr]; simp only [harrmod]; omega)
      refine ⟨hrec.1, hrec.2.1, hrec.2.2.1, ?_⟩
      show ((runRx (processPacket st h t) es).frames fid).arrived = _
      rw [hrec.2.2.2, hfr]
      simp only [harrmod]
      omega
    · rw [if_neg hf] at hbound ⊢
      have hfr := pp_frames_other st h t fid (fun hx => hf hx.symm)
      have hrec := ih (processPacket st h t)
        (by rw [hfr]; exact hcnt) (by rw [hfr]; exact hpc) (by rw [hfr]; exact hdone)
        (by rw [hfr]; exact harr1) (by rw [hfr]; omega)
      refine ⟨hrec.1, hrec.2.1, hrec.2.2.1, ?_⟩
      show ((runRx (processPacket st h t) es).frames fid).arrived = _
      rw [hrec.2.2.2, hfr]
      omega

/-- C10: if the first fragment processed for a frameId declares a
fragmentCount of 0, the tracker still increments totalFrames for
that frame, but as long as fewer than 2^16 fragments of that
frameId arrive in total the completion test never holds (arrived
stays >= 1 as a u16), so the frame is never classified and is swept
into incompleteFrames at shutdown. -/
theorem c10_zero_declared_never_completes (deadline : Nat)
    (pre post : List (VrHeader × Nat)) (hdr : VrHeader) (t : Nat)
    (hfidpre : countFid (hdr.frameId % 4294967296) pre = 0)
    (hzero : hdr.pktCount % 65536 = 0)
    (hbound : 1 + countFid (hdr.frameId % 4294967296) post < 65536) :
    (runRx (initRx deadline) (pre ++ [(hdr, t)])).totalFrames
        = (runRx (initRx deadline) pre).totalFrames + 1
    ∧ ((runRx (initRx deadline) (pre ++ (hdr, t) :: post)).frames
        (hdr.frameId % 4294967296)).counted = true
    ∧ ((runRx (initRx deadline) (pre ++ (hdr, t) :: post)).frames
        (hdr.frameId % 4294967296)).done = false
    ∧ ((runRx (initRx deadline) (pre ++ (hdr, t) :: post)).frames
        (hdr.frameId % 4294967296)).arrived
        = 1 + countFid (hdr.frameId % 4294967296) post
    ∧ 1 ≤ (stopApplication
        (runRx (initRx deadline) (pre ++ (hdr, t) :: post))).incompleteFrames := by
  set fid := hdr.frameId % 4294967296 with hfid
  have hpre : (runRx (initRx deadline) pre).frames fid = ({} : FrameState) :=
    runRx_frames_other fid (initRx deadline) pre hfidpre
  have hc : ((runRx (initRx deadline) pre).frames fid).counted = false := by
    simp [hpre]
  have hnf : ¬ (((runRx (initRx deadline) pre).frames fid).done = false ∧
      (((runRx (initRx deadline) pre).frames fid).arrived + 1) % 65536 =
        hdr.pktCount % 65536) := by
    rw [hpre, hzero]
    simp
  have hstep := pp_frames_fid_uncounted_nofire (runRx (initRx deadline) pre) hdr t hc hnf
  rw [hpre, hzero] at hstep
  have hzd : ((processPacket (runRx (initRx deadline) pre) hdr t).frames fid)
      = { pktCount := 0, arrived := 1, sendTsMs := hdr.sendTsMs % 4294967296,
          counted := true, done := false } := by
    rw [hstep]
    simp
  have hrun := runRx_zero_declared fid (processPacket (runRx (initRx deadline) pre) hdr t)
    post (by rw [hzd]) (by rw [hzd]) (by rw [hzd]) (by rw [hzd])
    (by rw [hzd]; exact hbound)
  have hsplit : runRx (initRx deadline) (pre ++ (hdr, t) :: post)
      = runRx (processPacket (runRx (initRx deadline) pre) hdr t) post := by
    rw [runRx_append]
    rfl
  have hmemkeys : fid ∈ (runRx (initRx deadline) (pre ++ (hdr, t) :: post)).keys := by
    rw [hsplit]
    refine runRx_keys_mono _ post ?_
    rw [pp_keys]
    exact Finset.mem_insert_self _ _
  refine ⟨?_, ?_, ?_, ?_, ?_⟩
  · rw [runRx_append]
    exact pp_total_of_uncounted (runRx (initRx deadline) pre) hdr t hc
  · rw [hsplit]; rw [hzd] at hrun; exact hrun.1
  · rw [hsplit]; rw [hzd] at hrun; exact hrun.2.2.1
  · rw [hsplit]; rw [hzd] at hrun
    rw [hrun.2.2.2]
  · rw [stopApplication]
    have hmemf : fid ∈ ((runRx (initRx deadline) (pre ++ (hdr, t) :: post)).keys.filter
        (fun f => (((runRx (initRx deadline) (pre ++ (hdr, t) :: post)).frames f).counted = true)
          ∧ (((runRx (initRx deadline) (pre ++ (hdr, t) :: post)).frames f).done = false))) := by
      rw [Finset.mem_filter]
      refine ⟨hmemkeys, ?_, ?_⟩
      · rw [hsplit]; rw [hzd] at hrun; exact hrun.1
      · rw [hsplit]; rw [hzd] at hrun; exact hrun.2.2.1
    have hcard := Finset.card_pos.mpr ⟨fid, hmemf⟩
    simp only
    omega

theorem c10_zero_declared_never_completes_witness :
    (runRx (initRx 50) ([] ++ [(⟨7, 0, 0, 9⟩, 5)])).totalFrames
        = (runRx (initRx 50) []).totalFrames + 1
    ∧ ((runRx (initRx 50) ([] ++ (⟨7, 0, 0, 9⟩, 5) :: [])).frames
        ((7 : Nat) % 4294967296)).counted = true
    ∧ ((runRx (initRx 50) ([] ++ (⟨7, 0, 0, 9⟩, 5) :: [])).frames
        ((7 : Nat) % 4294967296)).done = false
    ∧ ((runRx (initRx 50) ([] ++ (⟨7, 0, 0, 9⟩, 5) :: [])).frames
        ((7 : Nat) % 4294967296)).arrived = 1 + countFid ((7 : Nat) % 4294967296) []
    ∧ 1 ≤ (stopApplication
        (runRx (initRx 50) ([] ++ (⟨7, 0, 0, 9⟩, 5) :: []))).incompleteFrames :=
  c10_zero_declared_never_completes 50 [] [] ⟨7, 0, 0, 9⟩ 5 (by decide) (by decide) (by decide)

/-- The parse loop of VrReceiverApp::HandleTcpRead: while the
reassembly buffer holds at least one full block of m_packetSize
bytes, decode the leading 12 bytes as a VrHeader, feed it to
ProcessPacket at the current time, and drop the block.  The C++
loop condition is buf.size >= pk; the 0 < pk guard only excludes
the degenerate non-terminating pk = 0 loop. -/
def parseLoop (pk : Nat) (st : RxState) (buf : List Nat) (now : Nat) : RxState × List Nat :=
  if h : 0 < pk ∧ pk ≤ buf.length then
    match deserializeFromRaw buf with
    | some hdr => parseLoop pk (processPacket st hdr now) (buf.drop pk) now
    | none => (st, buf)
  else (st, buf)
termination_by buf.length
decreasing_by simp only [List.length_drop]; omega

/-- One TCP receive callback (VrReceiverApp::HandleTcpRead) for a
single received segment: if appending would exceed the buffer
capacity, the whole buffer is discarded and nothing is parsed;
otherwise the chunk is appended and the parse loop runs. -/
def handleTcpRead (pk cap : Nat) (s : RxState × List Nat) (chunk : List Nat) (now : Nat) :
    RxState × List Nat :=
  if cap < s.2.length + chunk.length then (s.1, [])
  else parseLoop pk s.1 (s.2 ++ chunk) now

/-- The TCP receiver fed a sequence of byte chunks, each tagged with
its arrival time in ms. -/
def runTcp (pk cap : Nat) (s : RxState × List Nat) : List (List Nat × Nat) → RxState × List Nat
  | [] => s
  | (chunk, now) :: cs => runTcp pk cap (handleTcpRead pk cap s chunk now) cs

/-- The encoded bytes of one fragment: 12-byte header then payload. -/
def fragmentBytes (f : VrHeader × List Nat) : List Nat :=
  headerBytes f.1 ++ f.2

/-- The byte stream of a fragment sequence. -/
def streamBytes (fs : List (VrHeader × List Nat)) : List Nat :=
  (fs.map fragmentBytes).flatten

/-- Whether a chunk-length sequence keeps the reassembly buffer
within capacity at every append, starting from residual r bytes:
after each in-capacity append the parse loop leaves (r + len) % pk
bytes. -/
def chunksFitB (pk cap : Nat) : Nat → List Nat → Bool
  | _, [] => true
  | r, l :: ls => decide (r + l ≤ cap) && chunksFitB pk cap ((r + l) % pk) ls

/-- The arrival time assigned to each fragment by the byte-stream
path: a fragment is processed at the time of the chunk whose bytes
complete its block. -/
def assignTimes (pk : Nat) : Nat → List (Nat × Nat) → List Nat
  | _, [] => []
  | r, (l, u) :: cs => List.replicate ((r + l) / pk) u ++ assignTimes pk ((r + l) % pk) cs

lemma pp_canon (st : RxState) (h : VrHeader) (t : Nat) :
    processPacket st (canonHeader h) t = processPacket st h t := by
  simp only [processPacket, canonHeader, Nat.mod_mod_of_dvd _ dvd_rfl]

lemma parseLoop_stop (pk : Nat) (st : RxState) (buf : List Nat) (now : Nat)
    (h : ¬ (0 < pk ∧ pk ≤ buf.length)) :
    parseLoop pk st buf now = (st, buf) := by
  rw [parseLoop, dif_neg h]

lemma parseLoop_go (pk : Nat) (st : RxState) (buf : List Nat) (now : Nat) (hdr : VrHeader)
    (h1 : 0 < pk) (h2 : pk ≤ buf.length)
    (hd : deserializeFromRaw buf = some hdr) :
    parseLoop pk st buf now = parseLoop pk (processPacket st hdr now) (buf.drop pk) now := by
  rw [parseLoop, dif_pos ⟨h1, h2⟩, hd]

lemma fragmentBytes_length (pk : Nat) (f : VrHeader × List Nat)
    (hpk : 12 ≤ pk) (hf : (f.2).length = pk - 12) :
    (fragmentBytes f).length = pk := by
  simp [fragmentBytes, headerBytes, hf]
  omega

lemma streamBytes_length (pk : Nat) (fs : List (VrHeader × List Nat))
    (hpk : 12 ≤ pk) (hfs : ∀ f ∈ fs, (f.2).length = pk - 12) :
    (streamBytes fs).length = fs.length * pk := by
  induction fs with
  | nil => simp [streamBytes]
  | cons f fs ih =>
    simp only [streamBytes, List.map_cons, List.flatten_cons, List.length_append]
    rw [fragmentBytes_length pk f hpk (hfs f (List.mem_cons_self f fs))]
    have := ih (fun g hg => hfs g (List.mem_cons_of_mem f hg))
    simp only [streamBytes] at this
    rw [this]
    simp [List.length_cons]
    ring

/-- The parse loop over a buffer holding exactly the blocks of fs
followed by a partial residue processes exactly the headers of fs
in order, at the call's single time stamp. -/
lemma parseLoop_stream (pk : Nat) (hpk : 12 ≤ pk) (fs : List (VrHeader × List Nat))
    (st : RxState) (extra : List Nat) (now : Nat)
    (hfs : ∀ f ∈ fs, (f.2).length = pk - 12)
    (hex : extra.length < pk) :
    parseLoop pk st (streamBytes fs ++ extra) now
      = (runRx st (fs.map (fun f => (f.1, now))), extra) := by
  induction fs generalizing st with
  | nil =>
    refine parseLoop_stop pk st extra now ?_
    intro hx
    omega
  | cons f fs ih =>
    have hflen : (fragmentBytes f).length = pk :=
      fragmentBytes_length pk f hpk (hfs f (List.mem_cons_self f fs))
    have hbuf : streamBytes (f :: fs) ++ extra
        = fragmentBytes f ++ (streamBytes fs ++ extra) := by
      simp [streamBytes]
    have hlen : pk ≤ (streamBytes (f :: fs) ++ extra).length := by
      rw [hbuf]
      simp only [List.length_append]
      omega
    have hdec : deserializeFromRaw (streamBytes (f :: fs) ++ extra)
        = some (canonHeader f.1) := by
      rw [hbuf, fragmentBytes, List.append_assoc]
      exact deserialize_headerBytes f.1 _
    have hdrop : (streamBytes (f :: fs) ++ extra).drop pk = streamBytes fs ++ extra := by
      rw [hbuf, ← hflen]
      exact List.drop_left _ _
    rw [parseLoop_go pk st _ now (canonHeader f.1) (by omega) hlen hdec, hdrop,
      pp_canon st f.1 now,
      ih (processPacket st f.1 now) (fun g hg => hfs g (List.mem_cons_of_mem f hg))]
    rfl

lemma zip_map_fst_replicate (l : List (VrHeader × List Nat)) (u : Nat) :
    (l.map Prod.fst).zip (List.replicate l.length u) = l.map (fun f => (f.1, u)) := by
  induction l with
  | nil => rfl
  | cons f l ih =>
    simp only [List.map_cons, List.length_cons, List.replicate_succ, List.zip_cons_cons, ih]

lemma streamBytes_append (a b : List (VrHeader × List Nat)) :
    streamBytes (a ++ b) = streamBytes a ++ streamBytes b := by
  simp [streamBytes]

/-- The byte-stream path, fed chunks that exactly cover the block
stream of fs starting r bytes in (those r bytes are already
buffered), never overflowing, processes exactly the headers of fs
in order, each at the time of the chunk completing its block. -/
lemma runTcp_stream (pk cap : Nat) (hpk : 12 ≤ pk) (cs : List (List Nat × Nat)) :
    ∀ (fs : List (VrHeader × List Nat)) (r : Nat) (st : RxState),
    (∀ f ∈ fs, (f.2).length = pk - 12) →
    r < pk →
    r ≤ (streamBytes fs).length →
    (cs.map Prod.fst).flatten = (streamBytes fs).drop r →
    chunksFitB pk cap r (cs.map (fun c => (c.1).length)) = true →
    runTcp pk cap (st, (streamBytes fs).take r) cs
      = (runRx st ((fs.map Prod.fst).zip
          (assignTimes pk r (cs.map (fun c => ((c.1).length, c.2))))), []) := by
  induction cs with
  | nil =>
    intro fs r st hfs hrpk hrle hcover hfit
    have h0 : (streamBytes fs).length ≤ r := by
      have := congrArg List.length hcover
      simp only [List.map_nil, List.flatten_nil, List.length_nil, List.length_drop] at this
      omega
    have hfs0 : fs = [] := by
      have hsl := streamBytes_length pk fs hpk hfs
      rcases fs with _ | ⟨f, fs⟩
      · rfl
      · exfalso
        simp only [List.length_cons] at hsl
        have hge : pk ≤ (fs.length + 1) * pk := Nat.le_mul_of_pos_left pk (by omega)
        omega
    subst hfs0
    simp [runTcp, runRx, assignTimes, streamBytes]
  | cons cu cs ih =>
    intro fs r st hfs hrpk hrle hcover hfit
    rcases cu with ⟨c, u⟩
    simp only [List.map_cons, List.flatten_cons] at hcover
    simp only [List.map_cons, chunksFitB, Bool.and_eq_true, decide_eq_true_eq] at hfit
    obtain ⟨hcap, hfit'⟩ := hfit
    have hlen_c : c.length ≤ (streamBytes fs).length - r := by
      have := congrArg List.length hcover
      simp only [List.length_append, List.length_drop] at this
      omega
    have hrl_le : r + c.length ≤ (streamBytes fs).length := by omega
    have hqr : ((r + c.length) / pk) * pk + (r + c.length) % pk = r + c.length := by
      rw [Nat.mul_comm]
      exact Nat.div_add_mod _ _
    have hsl := streamBytes_length pk fs hpk hfs
    have hq_le : (r + c.length) / pk ≤ fs.length := by
      have h1 : r + c.length ≤ fs.length * pk := by omega
      calc (r + c.length) / pk ≤ fs.length * pk / pk := Nat.div_le_div_right h1
        _ = fs.length := Nat.mul_div_cancel _ (by omega)
    have hr'_lt : (r + c.length) % pk < pk := Nat.mod_lt _ (by omega)
    have hcpref : c = ((streamBytes fs).drop r).take c.length := by
      rw [← hcover]
      exact (List.take_left c _).symm
    have hbufapp : (streamBytes fs).take r ++ c = (streamBytes fs).take (r + c.length) := by
      rw [List.take_add, ← hcpref]
    have hfs_split : streamBytes fs
        = streamBytes (fs.take ((r + c.length) / pk))
          ++ streamBytes (fs.drop ((r + c.length) / pk)) := by
      rw [← streamBytes_append, List.take_append_drop]
    have htlen : (streamBytes (fs.take ((r + c.length) / pk))).length
        = ((r + c.length) / pk) * pk := by
      rw [streamBytes_length pk _ hpk (fun f hf => hfs f (List.mem_of_mem_take hf)),
        List.length_take, min_eq_left hq_le]
    have hdecomp : (streamBytes fs).take (r + c.length)
        = streamBytes (fs.take ((r + c.length) / pk))
          ++ (streamBytes (fs.drop ((r + c.length) / pk))).take ((r + c.length) % pk) := by
      have h3 : r + c.length
          = (streamBytes (fs.take ((r + c.length) / pk))).length + (r + c.length) % pk := by
        rw [htlen]
        omega
      conv_lhs => rw [h3, hfs_split]
      exact List.take_append _
    have hbuflen : ((streamBytes fs).take r).length = r := by
      rw [List.length_take, min_eq_left hrle]
    have hnov : ¬ (cap < ((streamBytes fs).take r).length + c.length) := by
      rw [hbuflen]
      omega
    have hS'len : (r + c.length) % pk ≤ (streamBytes (fs.drop ((r + c.length) / pk))).length := by
      rw [streamBytes_length pk _ hpk (fun f hf => hfs f (List.mem_of_mem_drop hf)),
        List.length_drop]
      rcases Nat.lt_or_ge ((r + c.length) / pk) fs.length with hlt | hge
      · have : pk ≤ (fs.length - (r + c.length) / pk) * pk :=
          Nat.le_mul_of_pos_left pk (by omega)
        omega
      · have hqe : (r + c.length) / pk = fs.length := le_antisymm hq_le hge
        rw [hqe] at hqr ⊢
        simp only [Nat.sub_self, Nat.zero_mul]
        omega
    have hcover' : (cs.map Prod.fst).flatten
        = (streamBytes (fs.drop ((r + c.length) / pk))).drop ((r + c.length) % pk) := by
      have h1 : (cs.map Prod.fst).flatten = ((streamBytes fs).drop r).drop c.length := by
        rw [← hcover]
        exact (List.drop_left c _).symm
      have h4 : ((streamBytes fs).drop r).drop c.length
          = (streamBytes fs).drop
              (((r + c.length) / pk) * pk + (r + c.length) % pk) := by
        rw [List.drop_drop]
        congr 1
        omega
      rw [h1, h4, hfs_split, ← htlen, List.drop_append]
    have hrec := ih (fs.drop ((r + c.length) / pk)) ((r + c.length) % pk)
      (runRx st ((fs.take ((r + c.length) / pk)).map (fun f => (f.1, u))))
      (fun f hf => hfs f (List.mem_of_mem_drop hf)) hr'_lt hS'len hcover' hfit'
    have hexlen : ((streamBytes (fs.drop ((r + c.length) / pk))).take ((r + c.length) % pk)).length
        < pk := by
      rw [List.length_take]
      exact lt_of_le_of_lt (min_le_left _ _) hr'_lt
    simp only [runTcp, handleTcpRead]
    rw [if_neg hnov, hbufapp, hdecomp,
      parseLoop_stream pk hpk (fs.take ((r + c.length) / pk)) st _ u
        (fun f hf => hfs f (List.mem_of_mem_take hf)) hexlen,
      hrec]
    refine congrArg (fun x => (x, ([] : List Nat))) ?_
    rw [← runRx_append]
    refine congrArg (runRx st) ?_
    simp only [List.map_cons]
    have htq : (fs.take ((r + c.length) / pk)).length = (r + c.length) / pk := by
      rw [List.length_take, min_eq_left hq_le]
    have hassign : assignTimes pk r (((c.length), u) :: cs.map (fun c => ((c.1).length, c.2)))
        = List.replicate ((r + c.length) / pk) u
          ++ assignTimes pk ((r + c.length) % pk) (cs.map (fun c => ((c.1).length, c.2))) := rfl
    have hmapsplit : fs.map Prod.fst
        = (fs.take ((r + c.length) / pk)).map Prod.fst
          ++ (fs.drop ((r + c.length) / pk)).map Prod.fst := by
      rw [← List.map_append, List.take_append_drop]
    rw [hassign]
    conv_rhs => rw [hmapsplit]
    rw [List.zip_append (by rw [List.length_map, htq, List.length_replicate])]
    refine congrArg₂ (· ++ ·) ?_ rfl
    have hrep : List.replicate ((r + c.length) / pk) u
        = List.replicate ((fs.take ((r + c.length) / pk)).length) u := by
      rw [htq]
    rw [hrep, zip_map_fst_replicate]

/-- C2: feeding the same N encoded fragments (12-byte header plus
pk - 12 payload bytes each) to the receiver either as discrete
message-preserving units (UDP path) or as arbitrary byte chunks
through the byte-stream path (TCP path, no chunk overflowing the
buffer) yields identical classification results (each fragment's
discrete delivery carrying the arrival time of the chunk that
completes its block). -/
theorem c2_udp_tcp_equivalence (pk cap deadline : Nat)
    (fs : List (VrHeader × List Nat)) (cs : List (List Nat × Nat))
    (hpk : 12 ≤ pk)
    (hfs : ∀ f ∈ fs, (f.2).length = pk - 12)
    (hcover : (cs.map Prod.fst).flatten = streamBytes fs)
    (hfit : chunksFitB pk cap 0 (cs.map (fun c => (c.1).length)) = true) :
    (stopApplication (runRx (initRx deadline) ((fs.map Prod.fst).zip
        (assignTimes pk 0 (cs.map (fun c => ((c.1).length, c.2))))))).totalFrames
      = (stopApplication (runTcp pk cap (initRx deadline, []) cs).1).totalFrames
    ∧ (stopApplication (runRx (initRx deadline) ((fs.map Prod.fst).zip
        (assignTimes pk 0 (cs.map (fun c => ((c.1).length, c.2))))))).onTimeFrames
      = (stopApplication (runTcp pk cap (initRx deadline, []) cs).1).onTimeFrames
    ∧ (stopApplication (runRx (initRx deadline) ((fs.map Prod.fst).zip
        (assignTimes pk 0 (cs.map (fun c => ((c.1).length, c.2))))))).lateFrames
      = (stopApplication (runTcp pk cap (initRx deadline, []) cs).1).lateFrames
    ∧ (stopApplication (runRx (initRx deadline) ((fs.map Prod.fst).zip
        (assignTimes pk 0 (cs.map (fun c => ((c.1).length, c.2))))))).incompleteFrames
      = (stopApplication (runTcp pk cap (initRx deadline, []) cs).1).incompleteFrames := by
  have h := runTcp_stream pk cap hpk cs fs 0 (initRx deadline) hfs (by omega)
    (Nat.zero_le _) (by simpa using hcover) hfit
  rw [List.take_zero] at h
  rw [h]
  exact ⟨rfl, rfl, rfl, rfl⟩

def c2wFragments : List (VrHeader × List Nat) :=
  [(⟨1, 0, 2, 40⟩, [7, 7]), (⟨1, 1, 2, 41⟩, [8, 8])]

def c2wChunks : List (List Nat × Nat) :=
  [([0], 60), ([0, 0, 1, 0, 0, 0, 2, 0, 0, 0, 40, 7], 60),
   ([7, 0, 0, 0, 1, 0, 1, 0, 2, 0, 0, 0, 41, 8, 8], 60)]

theorem c2_udp_tcp_equivalence_witness :
    (stopApplication (runRx (initRx 50) ((c2wFragments.map Prod.fst).zip
        (assignTimes 14 0 (c2wChunks.map (fun c => ((c.1).length, c.2))))))).totalFrames
      = (stopApplication (runTcp 14 200000 (initRx 50, []) c2wChunks).1).totalFrames
    ∧ (stopApplication (runRx (initRx 50) ((c2wFragments.map Prod.fst).zip
        (assignTimes 14 0 (c2wChunks.map (fun c => ((c.1).length, c.2))))))).onTimeFrames
      = (stopApplication (runTcp 14 200000 (initRx 50, []) c2wChunks).1).onTimeFrames
    ∧ (stopApplication (runRx (initRx 50) ((c2wFragments.map Prod.fst).zip
        (assignTimes 14 0 (c2wChunks.map (fun c => ((c.1).length, c.2))))))).lateFrames
      = (stopApplication (runTcp 14 200000 (initRx 50, []) c2wChunks).1).lateFrames
    ∧ (stopApplication (runRx (initRx 50) ((c2wFragments.map Prod.fst).zip
        (assignTimes 14 0 (c2wChunks.map (fun c => ((c.1).length, c.2))))))).incompleteFrames
      = (stopApplication (runTcp 14 200000 (initRx 50, []) c2wChunks).1).incompleteFrames :=
  c2_udp_tcp_equivalence 14 200000 50 c2wFragments c2wChunks
    (by decide) (by decide) (by decide) (by decide)

/-- C6: when appending an incoming chunk would make the reassembly
buffer exceed capacity, the whole buffer is discarded, nothing is
parsed, and the classification state is unchanged (no error is
propagated); a subsequent block-aligned byte sequence then parses
correctly from the empty buffer. -/
theorem c6_overflow_clears_buffer (pk cap : Nat) (st : RxState)
    (buf chunk : List Nat) (now now2 : Nat) (fs : List (VrHeader × List Nat)) :
    (cap < buf.length + chunk.length →
      handleTcpRead pk cap (st, buf) chunk now = (st, []))
    ∧ (12 ≤ pk → (∀ f ∈ fs, (f.2).length = pk - 12) →
        (streamBytes fs).length ≤ cap →
        handleTcpRead pk cap (st, []) (streamBytes fs) now2
          = (runRx st (fs.map (fun f => (f.1, now2))), [])) := by
  constructor
  · intro hov
    simp only [handleTcpRead]
    rw [if_pos hov]
  · intro hpk hfs hcap
    simp only [handleTcpRead]
    rw [if_neg (by simp only [List.length_nil]; omega), List.nil_append]
    have h := parseLoop_stream pk hpk fs st [] now2 hfs (by simpa using Nat.lt_of_lt_of_le (by omega) hpk)
    simpa using h

theorem c6_overflow_clears_buffer_witness :
    (200 < (List.replicate 150 (0 : Nat)).length + (List.replicate 100 (0 : Nat)).length →
      handleTcpRead 14 200 (initRx 50, List.replicate 150 (0 : Nat))
        (List.replicate 100 (0 : Nat)) 3 = (initRx 50, []))
    ∧ (12 ≤ 14 → (∀ f ∈ [((⟨1, 0, 1, 2⟩ : VrHeader), [5, 5])], (f.2).length = 14 - 12) →
        (streamBytes [((⟨1, 0, 1, 2⟩ : VrHeader), [5, 5])]).length ≤ 200 →
        handleTcpRead 14 200 (initRx 50, []) (streamBytes [((⟨1, 0, 1, 2⟩ : VrHeader), [5, 5])]) 9
          = (runRx (initRx 50) ([((⟨1, 0, 1, 2⟩ : VrHeader), [5, 5])].map (fun f => (f.1, 9))), []))
    ∧ 200 < (List.replicate 150 (0 : Nat)).length + (List.replicate 100 (0 : Nat)).length
    ∧ (streamBytes [((⟨1, 0, 1, 2⟩ : VrHeader), [5, 5])]).length ≤ 200 :=
  ⟨(c6_overflow_clears_buffer 14 200 (initRx 50) (List.replicate 150 0)
      (List.replicate 100 0) 3 9 [((⟨1, 0, 1, 2⟩ : VrHeader), [5, 5])]).1,
   (c6_overflow_clears_buffer 14 200 (initRx 50) (List.replicate 150 0)
      (List.replicate 100 0) 3 9 [((⟨1, 0, 1, 2⟩ : VrHeader), [5, 5])]).2,
   by simp, by decide⟩

/-- Paced-mode emission times (ns) of one frame's fragments
(VrDownlinkApp::SendOneFragment): fragment 0 at t0 and each next
fragment scheduled pacingNs after the previous emission.  The
chained recursion emits the idx = 0 fragment even when pkts = 0. -/
def pacedFrameTimes (pacingNs t0 pkts : Nat) : List Nat :=
  if pkts = 0 then [t0] else (List.range pkts).map (fun i => t0 + i * pacingNs)

/-- The scheduling delay from the last fragment of a frame to the
next SendFrame: `remaining = frameInterval - pkts * pacing` when
that ns-3 Time is non-negative (Time::IsPositive is >= 0), else
1 microsecond. -/
def interFrameDelay (frameIntervalNs pacingNs pkts : Nat) : Nat :=
  if pkts * pacingNs ≤ frameIntervalNs then frameIntervalNs - pkts * pacingNs else 1000

/-- Paced-mode emission schedule: the per-frame lists of fragment
emission times (ns) for n frames, the first frame starting at t0. -/
def pacedSchedule (frameIntervalNs pacingNs pkts : Nat) : Nat → Nat → List (List Nat)
  | _, 0 => []
  | t0, n + 1 =>
    pacedFrameTimes pacingNs t0 pkts ::
      pacedSchedule frameIntervalNs pacingNs pkts
        (t0 + (pkts - 1) * pacingNs + interFrameDelay frameIntervalNs pacingNs pkts) n

lemma pacedFrameTimes_getD (P t0 pkts i : Nat) (hi : i < pkts) :
    (pacedFrameTimes P t0 pkts).getD i 0 = t0 + i * P := by
  unfold pacedFrameTimes
  rw [if_neg (by omega)]
  rw [List.getD_eq_getElem?_getD, List.getElem?_map, List.getElem?_range hi]
  rfl

lemma pacedSchedule_getD (F P pkts : Nat) :
    ∀ (n t0 j : Nat), j < n →
      (pacedSchedule F P pkts t0 n).getD j []
        = pacedFrameTimes P (t0 + j * ((pkts - 1) * P + interFrameDelay F P pkts)) pkts := by
  intro n
  induction n with
  | zero => intro t0 j hj; omega
  | succ n ih =>
    intro t0 j hj
    rcases j with _ | j
    · simp [pacedSchedule]
    · have := ih (t0 + (pkts - 1) * P + interFrameDelay F P pkts) j (by omega)
      simp only [pacedSchedule, List.getD_cons_succ, this]
      congr 1
      ring

/-- C5 counterexample: with frameInterval 33 ms, pacing 200 us and
165 fragments per frame (the main-program values with frame size
198000), remaining is exactly 0, the code schedules the next frame
0 ns after the last fragment, while the claim's
max(frameInterval - pkts * pacing, 1 us) is 1000 ns. -/
theorem c5_pacing_gap_counterexample :
    ((pacedSchedule 33000000 200000 165 0 2).getD 1 []).getD 0 0
      = ((pacedSchedule 33000000 200000 165 0 2).getD 0 []).getD 164 0
    ∧ ¬ (((pacedSchedule 33000000 200000 165 0 2).getD 1 []).getD 0 0
      = ((pacedSchedule 33000000 200000 165 0 2).getD 0 []).getD 164 0
        + Nat.max (33000000 - 165 * 200000) 1000) := by
  constructor
  · decide
  · decide

/-- C5 amended: in paced mode consecutive fragment emissions within
a frame are separated by exactly the pacing interval, and the gap
from the last fragment of a frame to the first fragment of the next
frame equals frameInterval - fragmentCount * pacing when that
remainder is non-negative, and 1 us only when it is negative. -/
theorem c5_amended_pacing_gaps (F P pkts t0 n : Nat) (hpkts : 1 ≤ pkts) :
    (∀ j i, j < n → i + 1 < pkts →
      ((pacedSchedule F P pkts t0 n).getD j []).getD (i + 1) 0
        = ((pacedSchedule F P pkts t0 n).getD j []).getD i 0 + P)
    ∧ (∀ j, j + 1 < n →
      ((pacedSchedule F P pkts t0 n).getD (j + 1) []).getD 0 0
        = ((pacedSchedule F P pkts t0 n).getD j []).getD (pkts - 1) 0
          + (if pkts * P ≤ F then F - pkts * P else 1000)) := by
  constructor
  · intro j i hj hi
    rw [pacedSchedule_getD F P pkts n t0 j hj,
      pacedFrameTimes_getD P _ pkts (i + 1) hi,
      pacedFrameTimes_getD P _ pkts i (by omega)]
    ring
  · intro j hj
    rw [pacedSchedule_getD F P pkts n t0 (j + 1) hj,
      pacedSchedule_getD F P pkts n t0 j (by omega),
      pacedFrameTimes_getD P _ pkts 0 (by omega),
      pacedFrameTimes_getD P _ pkts (pkts - 1) (by omega)]
    have hD : interFrameDelay F P pkts
        = (if pkts * P ≤ F then F - pkts * P else 1000) := rfl
    rw [← hD]
    have hsplit : (pkts - 1) * P + (j + 1) * ((pkts - 1) * P + interFrameDelay F P pkts)
        = (pkts - 1) * P + j * ((pkts - 1) * P + interFrameDelay F P pkts)
          + ((pkts - 1) * P + interFrameDelay F P pkts) := by
      ring
    omega

theorem c5_amended_pacing_gaps_witness :
    ((pacedSchedule 33000000 200000 75 0 2).getD 0 []).getD 1 0
      = ((pacedSchedule 33000000 200000 75 0 2).getD 0 []).getD 0 0 + 200000
    ∧ ((pacedSchedule 33000000 200000 75 0 2).getD 1 []).getD 0 0
      = ((pacedSchedule 33000000 200000 75 0 2).getD 0 []).getD 74 0
        + (if 75 * 200000 ≤ 33000000 then 33000000 - 75 * 200000 else 1000) :=
  ⟨(c5_amended_pacing_gaps 33000000 200000 75 0 2 (by decide)).1 0 0 (by decide) (by decide),
   (c5_amended_pacing_gaps 33000000 200000 75 0 2 (by decide)).2 0 (by decide)⟩

/-- VrDownlinkApp::SendFrame, burst mode (paced mode stamps the
same header fields): pkts = (m_frameSize + m_pktSize - 1) / m_pktSize
in uint32 arithmetic, the loop emits pkts fragments, and the header
constructor casts pktId and pktCount to uint16 and the timestamp to
uint32. -/
def sendFrameHeaders (frameSize pktSize frameId nowMs : Nat) : List VrHeader :=
  let pkts := ((frameSize % 4294967296 + pktSize % 4294967296 + 4294967295) % 4294967296)
      / (pktSize % 4294967296)
  (List.range pkts).map
    (fun i => ⟨frameId % 4294967296, i % 65536, pkts % 65536, nowMs % 4294967296⟩)

/-- C9 counterexample: with frameSizeBytes = 4294967295 and
fragmentPayloadBytes = 1200 the uint32 computation of
frameSize + pktSize - 1 wraps, so 0 fragments are emitted instead
of ceil(frameSize/pktSize) = 3579140; and with
frameSizeBytes = 78643200 (ceil = 65536 fragments) the emitted
fragmentCount field is the uint16 truncation 0, not 65536. -/
theorem c9_fragment_count_counterexample :
    (sendFrameHeaders 4294967295 1200 0 0).length = 0
    ∧ (4294967295 + 1200 - 1) / 1200 = 3579140
    ∧ (VrHeader.mk 0 0 0 0) ∈ sendFrameHeaders 78643200 1200 0 0
    ∧ ¬ ((VrHeader.mk 0 0 0 0).pktCount = (78643200 + 1200 - 1) / 1200) := by
  refine ⟨by decide, by decide, ?_, by decide⟩
  have hp : ((78643200 % 4294967296 + 1200 % 4294967296 + 4294967295) % 4294967296)
      / (1200 % 4294967296) = 65536 := by norm_num
  simp only [sendFrameHeaders, hp]
  exact List.mem_map.mpr ⟨0, List.mem_range.mpr (by norm_num), by decide⟩

/-- C9 amended: for frameSizeBytes > 0 and fragmentPayloadBytes > 0
with frameSizeBytes + fragmentPayloadBytes - 1 < 2^32, the generator
emits exactly ceil(frameSizeBytes / fragmentPayloadBytes) fragments
per frame, and stamps each fragment's fragmentCount field with that
value reduced modulo 2^16. -/
theorem c9_amended_fragment_count (fs ps fid now : Nat)
    (hfs : 0 < fs) (hps : 0 < ps) (hrange : fs + ps - 1 < 4294967296) :
    (sendFrameHeaders fs ps fid now).length = (fs + ps - 1) / ps
    ∧ ∀ h ∈ sendFrameHeaders fs ps fid now,
        h.pktCount = ((fs + ps - 1) / ps) % 65536 := by
  have hfsr : fs % 4294967296 = fs := Nat.mod_eq_of_lt (by omega)
  have hpsr : ps % 4294967296 = ps := Nat.mod_eq_of_lt (by omega)
  have hsum : (fs % 4294967296 + ps % 4294967296 + 4294967295) % 4294967296
      = fs + ps - 1 := by
    rw [hfsr, hpsr]
    omega
  constructor
  · simp only [sendFrameHeaders]
    rw [hsum, hpsr]
    simp only [List.length_map, List.length_range]
  · intro h hh
    simp only [sendFrameHeaders] at hh
    rw [hsum, hpsr] at hh
    simp only [List.mem_map] at hh
    obtain ⟨i, hi, rfl⟩ := hh
    simp only [VrHeader.pktCount]

theorem c9_amended_fragment_count_witness :
    ((sendFrameHeaders 90000 1200 0 0).length = (90000 + 1200 - 1) / 1200
    ∧ ∀ h ∈ sendFrameHeaders 90000 1200 0 0,
        h.pktCount = ((90000 + 1200 - 1) / 1200) % 65536)
    ∧ (90000 + 1200 - 1) / 1200 = 75 :=
  ⟨c9_amended_fragment_count 90000 1200 0 0 (by decide) (by decide) (by decide),
   by decide⟩

/-- VrReceiverApp::GetAvgDelay: 0.0 for an empty series, otherwise
sum / count.  The double arithmetic is modelled exactly over the
rationals. -/
def getAvgDelay (delays : List Nat) : ℚ :=
  if delays.isEmpty then 0 else (delays.sum : ℚ) / (delays.length : ℚ)

/-- VrReceiverApp::GetP99Delay: 0 for an empty series, otherwise the
ascending-sorted copy at index floor(count * 0.99), clamped to
count - 1 (std::sort modelled by insertion sort; the double
size * 0.99 truncation equals count * 99 / 100 in Nat division). -/
def getP99Delay (delays : List Nat) : Nat :=
  if delays.isEmpty then 0
  else
    (List.insertionSort (· ≤ ·) delays).getD
      (if delays.length ≤ delays.length * 99 / 100 then delays.length - 1
       else delays.length * 99 / 100) 0

/-- VrReceiverApp::GetMaxDelay: 0 for an empty series, otherwise the
maximum element (std::max_element). -/
def getMaxDelay (delays : List Nat) : Nat :=
  if delays.isEmpty then 0 else delays.foldr max 0

lemma foldr_max_mem (l : List Nat) (hne : l ≠ []) : l.foldr max 0 ∈ l := by
  induction l with
  | nil => exact absurd rfl hne
  | cons x xs ih =>
    rcases eq_or_ne xs [] with rfl | hxs
    · simp
    · have hx : (x :: xs).foldr max 0 = max x (xs.foldr max 0) := rfl
      rw [hx]
      rcases Nat.le_total (xs.foldr max 0) x with hle | hle
      · rw [max_eq_left hle]
        exact List.mem_cons_self x xs
      · rw [max_eq_right hle]
        exact List.mem_cons_of_mem x (ih hxs)

lemma foldr_max_le (l : List Nat) (x : Nat) (hx : x ∈ l) : x ≤ l.foldr max 0 := by
  induction l with
  | nil => simp at hx
  | cons y ys ih =>
    rcases List.mem_cons.mp hx with rfl | hx'
    · exact le_max_left _ _
    · exact le_trans (ih hx') (le_max_right _ _)

set_option maxRecDepth 10000 in
/-- C8: the delay aggregator computes average = sum/count (0 for the
empty series), p99 = the ascending-sorted series at index
floor(count * 99/100) clamped to count - 1 (0 for the empty
series), and max = the maximum element (0 for the empty series);
in particular [10,10,10] averages to 10, delays 1..100 give
p99 = 100, and the empty series gives 0 for all three. -/
theorem c8_delay_aggregator :
    getAvgDelay [] = 0
    ∧ (∀ l : List Nat, l ≠ [] → getAvgDelay l = (l.sum : ℚ) / (l.length : ℚ))
    ∧ getP99Delay [] = 0
    ∧ (∀ l s : List Nat, l ≠ [] → l.Perm s → s.Sorted (· ≤ ·) →
        getP99Delay l = s.getD (min (l.length * 99 / 100) (l.length - 1)) 0)
    ∧ getMaxDelay [] = 0
    ∧ (∀ l : List Nat, l ≠ [] →
        getMaxDelay l ∈ l ∧ ∀ x ∈ l, x ≤ getMaxDelay l)
    ∧ getAvgDelay [10, 10, 10] = 10
    ∧ getP99Delay (List.range' 1 100) = 100 := by
  refine ⟨rfl, ?_, rfl, ?_, rfl, ?_, by norm_num [getAvgDelay], by decide⟩
  · intro l hl
    rw [getAvgDelay, if_neg (by simpa using hl)]
  · intro l s hl hperm hsorted
    have hs : s = List.insertionSort (· ≤ ·) l := by
      refine List.eq_of_perm_of_sorted ?_ hsorted (List.sorted_insertionSort _ l)
      exact hperm.symm.trans (List.perm_insertionSort _ l).symm
    have hlen : 1 ≤ l.length := by
      rcases l with _ | _
      · exact absurd rfl hl
      · simp
    have hidx : l.length * 99 / 100 < l.length := by omega
    rw [getP99Delay, if_neg (by simpa using hl), hs]
    rw [if_neg (by omega), min_eq_left (by omega)]
  · intro l hl
    rw [getMaxDelay, if_neg (by simpa using hl)]
    exact ⟨foldr_max_mem l hl, fun x hx => foldr_max_le l x hx⟩

theorem c8_delay_aggregator_witness :
    getAvgDelay [7, 9] = (([7, 9] : List Nat).sum : ℚ) / (([7, 9] : List Nat).length : ℚ)
    ∧ getP99Delay [9, 7] = [7, 9].getD (min (([9, 7] : List Nat).length * 99 / 100)
        (([9, 7] : List Nat).length - 1)) 0
    ∧ (getMaxDelay [9, 7] ∈ [9, 7] ∧ ∀ x ∈ [9, 7], x ≤ getMaxDelay [9, 7]) :=
  ⟨c8_delay_aggregator.2.1 [7, 9] (by decide),
   c8_delay_aggregator.2.2.2.1 [9, 7] [7, 9] (by decide) (by decide)
     (by decide),
   c8_delay_aggregator.2.2.2.2.2.1 [9, 7] (by decide)⟩

end ArvrSim
